import Mathlib

/-!
Shallow embedding of the linearizable-read subsystem (`read_only.rs`) of a
Raft consensus engine, together with theorems settling the specification
claims about it.

Modelling conventions:
* byte sequences (`Vec<u8>`) are `List Nat`;
* `HashMap<Vec<u8>, ReadIndexStatus>` is an association list with key-based
  lookup / erase / update (the code never iterates the map);
* `VecDeque<Vec<u8>>` is a `List` with the front of the deque at the head;
* `HashSet<u64>` is a `Finset Nat`;
* operations that can panic in Rust (`entries[0]` on an empty vector,
  `Option::unwrap`, `VecDeque::split_off` past the end) return `Option`,
  with `none` standing for the abort.
-/

namespace RaftReadOnly

/-- A byte-sequence correlation token (`Vec<u8>` in the source). -/
abbrev Ctx := List Nat

/-- The part of a log entry the subsystem reads: its `data` payload. -/
structure Entry where
  data : Ctx
  deriving DecidableEq

/-- The part of an `eraftpb::Message` the subsystem reads: its entry list,
its `context` bytes, and the `from` / `to` node ids (named `mfrom` / `mto`
because `from` is reserved in Lean). -/
structure Message where
  entries : List Entry
  context : Ctx
  mfrom : Nat
  mto : Nat
  deriving DecidableEq

/-- `ReadOnlyOption` from the source. -/
inductive ReadOnlyOption where
  | Safe
  | LeaseBased
  deriving DecidableEq

/-- `ReadIndexStatus`: one pending read request with its captured commit
index and the set of peers that acknowledged it. -/
structure ReadIndexStatus where
  req : Message
  index : Nat
  acks : Finset Nat
  deriving DecidableEq

/-- The `ReadOnly` struct: option, token-to-status map, insertion-ordered
token queue, and the `waiting_for_ready` gate counter. -/
structure ReadOnly where
  option : ReadOnlyOption
  pending_read_index : List (Ctx × ReadIndexStatus)
  read_index_queue : List Ctx
  waiting_for_ready : Nat
  deriving DecidableEq

/-- Key-based lookup in the association-list model of the hash map. -/
def mapLookup : List (Ctx × ReadIndexStatus) → Ctx → Option ReadIndexStatus
  | [], _ => none
  | p :: rest, k => if p.1 = k then some p.2 else mapLookup rest k

/-- `HashMap::contains_key`. -/
def mapContains (m : List (Ctx × ReadIndexStatus)) (k : Ctx) : Bool :=
  (mapLookup m k).isSome

/-- `HashMap::remove` (the removal part; the returned value is `mapLookup`). -/
def mapErase : List (Ctx × ReadIndexStatus) → Ctx → List (Ctx × ReadIndexStatus)
  | [], _ => []
  | p :: rest, k => if p.1 = k then mapErase rest k else p :: mapErase rest k

/-- In-place value update through `HashMap::get_mut`. -/
def mapUpdate : List (Ctx × ReadIndexStatus) → Ctx → ReadIndexStatus →
    List (Ctx × ReadIndexStatus)
  | [], _, _ => []
  | p :: rest, k, v =>
    if p.1 = k then (k, v) :: mapUpdate rest k v else p :: mapUpdate rest k v

/-- `Iterator::position`: index of the first element equal to `k`. -/
def findPos (k : Ctx) : List Ctx → Option Nat
  | [] => none
  | t :: rest => if t = k then some 0 else (findPos k rest).map (· + 1)

/-- `ReadOnly::new`. -/
def new (option : ReadOnlyOption) : ReadOnly :=
  { option := option
    pending_read_index := []
    read_index_queue := []
    waiting_for_ready := 0 }

/-- `ReadOnly::add_request`: registers a read request keyed by
`m.entries[0].data`; a duplicate key is a silent no-op.  `none` models the
panic of `m.entries[0]` on an empty entry list. -/
def add_request (ro : ReadOnly) (index : Nat) (m : Message) : Option ReadOnly :=
  match m.entries with
  | [] => none
  | e :: _ =>
    let key := e.data
    if mapContains ro.pending_read_index key then some ro
    else
      some { ro with
        pending_read_index :=
          ro.pending_read_index ++ [(key, ⟨m, index, ∅⟩)]
        read_index_queue := ro.read_index_queue ++ [key] }

/-- `ReadOnly::recv_ack`: records `m.from` as an acker of the request keyed
by `m.context` and returns the stored ack set united with `{m.to}`; an
unknown token returns the empty set and changes nothing. -/
def recv_ack (ro : ReadOnly) (m : Message) : Finset Nat × ReadOnly :=
  match mapLookup ro.pending_read_index m.context with
  | none => (∅, ro)
  | some rs =>
    let acks := insert m.mfrom rs.acks
    (acks ∪ {m.mto},
      { ro with
        pending_read_index :=
          mapUpdate ro.pending_read_index m.context { rs with acks := acks } })

/-- The pop/remove loop inside `ReadOnly::advance`: pops `n` tokens from the
front of the queue, removing each from the map; `none` models the panic of
`pop_front().unwrap()` or `remove(..).unwrap()`. -/
def drainFront (ro : ReadOnly) : Nat → Option (List ReadIndexStatus × ReadOnly)
  | 0 => some ([], ro)
  | n + 1 =>
    match ro.read_index_queue with
    | [] => none
    | t :: rest =>
      match mapLookup ro.pending_read_index t with
      | none => none
      | some status =>
        match drainFront
            { ro with
              read_index_queue := rest
              pending_read_index := mapErase ro.pending_read_index t } n with
        | none => none
        | some (l, ro') => some (status :: l, ro')

/-- `ReadOnly::advance`: finds `m.context` in the queue; when absent returns
the empty list, when found and not ready raises `waiting_for_ready`, when
found and ready drains the queue through that position. -/
def advance (ro : ReadOnly) (m : Message) (ready : Bool) :
    Option (List ReadIndexStatus × ReadOnly) :=
  match findPos m.context ro.read_index_queue with
  | none => some ([], ro)
  | some i =>
    if ready then drainFront ro (i + 1)
    else
      some ([],
        { ro with waiting_for_ready := max ro.waiting_for_ready (i + 1) })

/-- The removal loop inside `ReadOnly::advance_by_commit`: removes the given
tokens from the map, stamping each drained status with the committed index;
`none` models the panic of `remove(..).unwrap()`. -/
def drainTokens (pmap : List (Ctx × ReadIndexStatus)) (committed : Nat) :
    List Ctx → Option (List ReadIndexStatus × List (Ctx × ReadIndexStatus))
  | [] => some ([], pmap)
  | t :: rest =>
    match mapLookup pmap t with
    | none => none
    | some status =>
      match drainTokens (mapErase pmap t) committed rest with
      | none => none
      | some (l, pmap') => some ({ status with index := committed } :: l, pmap')

/-- `ReadOnly::advance_by_commit`: when the gate counter is positive, splits
off that many tokens from the front of the queue, removes them from the map,
stamps each with `committed`, and resets the counter; `none` models the
panic of `split_off` past the end of the queue (or a missing map entry). -/
def advance_by_commit (ro : ReadOnly) (committed : Nat) :
    Option (List ReadIndexStatus × ReadOnly) :=
  if ro.waiting_for_ready = 0 then some ([], ro)
  else if ro.waiting_for_ready ≤ ro.read_index_queue.length then
    match drainTokens ro.pending_read_index committed
        (ro.read_index_queue.take ro.waiting_for_ready) with
    | none => none
    | some (l, pmap') =>
      some (l,
        { ro with
          pending_read_index := pmap'
          read_index_queue := ro.read_index_queue.drop ro.waiting_for_ready
          waiting_for_ready := 0 })
  else none

/-- `ReadOnly::last_pending_request_ctx`: the back of the queue. -/
def last_pending_request_ctx (ro : ReadOnly) : Option Ctx :=
  ro.read_index_queue.getLast?

/-- `ReadOnly::pending_read_count`: the queue length. -/
def pending_read_count (ro : ReadOnly) : Nat :=
  ro.read_index_queue.length

/-- The registry invariant declared by the data model: every queued token is
a key of the map, every key of the map is queued, and the queue has no
duplicates. -/
def Inv (ro : ReadOnly) : Prop :=
  (∀ t ∈ ro.read_index_queue, mapContains ro.pending_read_index t = true) ∧
  (∀ p ∈ ro.pending_read_index, p.1 ∈ ro.read_index_queue) ∧
  ro.read_index_queue.Nodup

instance (ro : ReadOnly) : Decidable (Inv ro) := by
  unfold Inv; infer_instance

/-! ### Lemmas about the association-list map -/

theorem mapLookup_mapErase (pmap : List (Ctx × ReadIndexStatus)) (k t : Ctx) :
    mapLookup (mapErase pmap k) t = if t = k then none else mapLookup pmap t := by
  induction pmap with
  | nil => simp [mapLookup, mapErase]
  | cons p rest ih =>
    by_cases ht : t = k
    · subst ht
      by_cases hp : p.1 = t
      · simp [mapErase, hp, ih]
      · simp [mapErase, mapLookup, hp, ih]
    · by_cases hp : p.1 = k
      · have hpt : p.1 ≠ t := by rw [hp]; exact fun h => ht h.symm
        have hkt : k ≠ t := fun h => ht h.symm
        simp [mapErase, mapLookup, hp, hpt, ih, ht, hkt]
      · by_cases hpt : p.1 = t
        · simp [mapErase, mapLookup, hp, hpt, ih, ht]
        · simp [mapErase, mapLookup, hp, hpt, ih, ht]

theorem mapLookup_mapUpdate (pmap : List (Ctx × ReadIndexStatus)) (k t : Ctx)
    (v : ReadIndexStatus) :
    mapLookup (mapUpdate pmap k v) t =
      if t = k then (mapLookup pmap k).map (fun _ => v) else mapLookup pmap t := by
  induction pmap with
  | nil => simp [mapLookup, mapUpdate]
  | cons p rest ih =>
    by_cases hp : p.1 = k
    · by_cases ht : t = k
      · subst ht
        simp [mapUpdate, mapLookup, hp, ih]
      · have hpt : p.1 ≠ t := by rw [hp]; exact fun h => ht h.symm
        have hkt : k ≠ t := fun h => ht h.symm
        simp [mapUpdate, mapLookup, hp, hpt, ih, ht, hkt]
    · by_cases ht : t = k
      · subst ht
        simp [mapUpdate, mapLookup, hp, ih]
      · by_cases hpt : p.1 = t
        · simp [mapUpdate, mapLookup, hp, hpt, ih, ht]
        · simp [mapUpdate, mapLookup, hp, hpt, ih, ht]

theorem mapLookup_append_single_some (pmap : List (Ctx × ReadIndexStatus)) (k t : Ctx)
    (v w : ReadIndexStatus) (h : mapLookup pmap t = some w) :
    mapLookup (pmap ++ [(k, v)]) t = some w := by
  induction pmap with
  | nil => simp [mapLookup] at h
  | cons p rest ih =>
    by_cases hpt : p.1 = t
    · simp [mapLookup, hpt] at h ⊢
      exact h
    · simp [mapLookup, hpt] at h ⊢
      exact ih h

theorem mapLookup_append_single_none (pmap : List (Ctx × ReadIndexStatus)) (k t : Ctx)
    (v : ReadIndexStatus) (h : mapLookup pmap t = none) :
    mapLookup (pmap ++ [(k, v)]) t = if k = t then some v else none := by
  induction pmap with
  | nil => simp [mapLookup]
  | cons p rest ih =>
    by_cases hpt : p.1 = t
    · simp [mapLookup, hpt] at h
    · simp [mapLookup, hpt] at h ⊢
      exact ih h

theorem mapLookup_isSome_of_mem (pmap : List (Ctx × ReadIndexStatus))
    (p : Ctx × ReadIndexStatus) (hp : p ∈ pmap) :
    (mapLookup pmap p.1).isSome = true := by
  induction pmap with
  | nil => simp at hp
  | cons q rest ih =>
    rcases List.mem_cons.mp hp with h | h
    · subst h; simp [mapLookup]
    · by_cases hq : q.1 = p.1
      · simp [mapLookup, hq]
      · simp [mapLookup, hq, ih h]

theorem exists_mem_of_mapLookup (pmap : List (Ctx × ReadIndexStatus)) (k : Ctx)
    (v : ReadIndexStatus) (h : mapLookup pmap k = some v) : (k, v) ∈ pmap := by
  induction pmap with
  | nil => simp [mapLookup] at h
  | cons p rest ih =>
    by_cases hp : p.1 = k
    · simp [mapLookup, hp] at h
      subst h
      simp [← hp]
    · simp [mapLookup, hp] at h
      exact List.mem_cons_of_mem _ (ih h)

theorem mapContains_iff (pmap : List (Ctx × ReadIndexStatus)) (k : Ctx) :
    mapContains pmap k = true ↔ ∃ v, mapLookup pmap k = some v := by
  simp [mapContains, Option.isSome_iff_exists]

/-! ### Lemmas about `findPos` -/

theorem findPos_eq_none (k : Ctx) (q : List Ctx) :
    findPos k q = none ↔ k ∉ q := by
  induction q with
  | nil => simp [findPos]
  | cons t rest ih =>
    simp only [findPos, List.mem_cons]
    by_cases h : t = k
    · simp [h]
    · simp [h, ih, Ne.symm h]

theorem findPos_lt_length (k : Ctx) (q : List Ctx) (i : Nat)
    (h : findPos k q = some i) : i < q.length := by
  induction q generalizing i with
  | nil => simp [findPos] at h
  | cons t rest ih =>
    by_cases ht : t = k
    · simp [findPos, ht] at h
      simp only [List.length_cons]
      omega
    · simp [findPos, ht] at h
      obtain ⟨j, hj, rfl⟩ := h
      have := ih j hj
      simp only [List.length_cons]
      omega

/-! ### Specification of the drain loops -/

theorem drainFront_spec (n : Nat) :
    ∀ (opt : ReadOnlyOption) (pmap : List (Ctx × ReadIndexStatus)) (q : List Ctx) (w : Nat),
    n ≤ q.length →
    (q.take n).Nodup →
    (∀ t ∈ q.take n, (mapLookup pmap t).isSome = true) →
    ∃ l pmap',
      drainFront ⟨opt, pmap, q, w⟩ n = some (l, ⟨opt, pmap', q.drop n, w⟩) ∧
      (q.take n).map (mapLookup pmap) = l.map some ∧
      (∀ t, t ∉ q.take n → mapLookup pmap' t = mapLookup pmap t) ∧
      (∀ t ∈ q.take n, mapLookup pmap' t = none) := by
  induction n with
  | zero =>
    intro opt pmap q w _ _ _
    exact ⟨[], pmap, rfl, by simp, fun t _ => rfl, by simp⟩
  | succ n ih =>
    intro opt pmap q w hlen hnd hmem
    match q with
    | [] => simp at hlen
    | t :: rest =>
      have htake : (t :: rest).take (n + 1) = t :: rest.take n := rfl
      rw [htake] at hnd hmem
      have hnd' := List.nodup_cons.mp hnd
      obtain ⟨status, hst⟩ := Option.isSome_iff_exists.mp (hmem t (by simp))
      have hmem' : ∀ u ∈ rest.take n, (mapLookup (mapErase pmap t) u).isSome = true := by
        intro u hu
        have hut : u ≠ t := fun h => hnd'.1 (h ▸ hu)
        rw [mapLookup_mapErase, if_neg hut]
        exact hmem u (List.mem_cons_of_mem _ hu)
      have hlen' : n ≤ rest.length := by
        simp only [List.length_cons] at hlen
        omega
      obtain ⟨l, pmap', heq, hmapeq, hkeep, hgone⟩ :=
        ih opt (mapErase pmap t) rest w hlen' hnd'.2 hmem'
      refine ⟨status :: l, pmap', ?_, ?_, ?_, ?_⟩
      · simp only [drainFront, hst, heq, List.drop_succ_cons]
      · rw [htake]
        simp only [List.map_cons, hst]
        congr 1
        rw [← hmapeq]
        apply List.map_congr_left
        intro u hu
        have hut : u ≠ t := fun h => hnd'.1 (h ▸ hu)
        rw [mapLookup_mapErase, if_neg hut]
      · intro u hu
        rw [htake] at hu
        have hut : u ≠ t := fun h => hu (by simp [h])
        have hur : u ∉ rest.take n := fun h => hu (List.mem_cons_of_mem _ h)
        rw [hkeep u hur, mapLookup_mapErase, if_neg hut]
      · intro u hu
        rw [htake] at hu
        rcases List.mem_cons.mp hu with h | h
        · subst h
          rw [hkeep u hnd'.1, mapLookup_mapErase, if_pos rfl]
        · exact hgone u h

theorem drainTokens_spec (toks : List Ctx) :
    ∀ (pmap : List (Ctx × ReadIndexStatus)) (c : Nat),
    toks.Nodup →
    (∀ t ∈ toks, (mapLookup pmap t).isSome = true) →
    ∃ l pmap',
      drainTokens pmap c toks = some (l, pmap') ∧
      toks.map (fun t => (mapLookup pmap t).map (fun s => { s with index := c })) =
        l.map some ∧
      (∀ s ∈ l, s.index = c) ∧
      l.length = toks.length ∧
      (∀ t, t ∉ toks → mapLookup pmap' t = mapLookup pmap t) ∧
      (∀ t ∈ toks, mapLookup pmap' t = none) := by
  induction toks with
  | nil =>
    intro pmap c _ _
    exact ⟨[], pmap, rfl, by simp, by simp, rfl, fun t _ => rfl, by simp⟩
  | cons t rest ih =>
    intro pmap c hnd hmem
    have hnd' := List.nodup_cons.mp hnd
    obtain ⟨status, hst⟩ := Option.isSome_iff_exists.mp (hmem t (by simp))
    have hmem' : ∀ u ∈ rest, (mapLookup (mapErase pmap t) u).isSome = true := by
      intro u hu
      have hut : u ≠ t := fun h => hnd'.1 (h ▸ hu)
      rw [mapLookup_mapErase, if_neg hut]
      exact hmem u (List.mem_cons_of_mem _ hu)
    obtain ⟨l, pmap', heq, hmapeq, hidx, hlen, hkeep, hgone⟩ :=
      ih (mapErase pmap t) c hnd'.2 hmem'
    refine ⟨{ status with index := c } :: l, pmap', ?_, ?_, ?_, ?_, ?_, ?_⟩
    · simp only [drainTokens, hst, heq]
    · simp only [List.map_cons, hst, Option.map_some']
      congr 1
      rw [← hmapeq]
      apply List.map_congr_left
      intro u hu
      have hut : u ≠ t := fun h => hnd'.1 (h ▸ hu)
      rw [mapLookup_mapErase, if_neg hut]
    · intro s hs
      rcases List.mem_cons.mp hs with h | h
      · subst h; rfl
      · exact hidx s h
    · simp [hlen]
    · intro u hu
      have hut : u ≠ t := fun h => hu (by simp [h])
      have hur : u ∉ rest := fun h => hu (List.mem_cons_of_mem _ h)
      rw [hkeep u hur, mapLookup_mapErase, if_neg hut]
    · intro u hu
      rcases List.mem_cons.mp hu with h | h
      · subst h
        rw [hkeep u hnd'.1, mapLookup_mapErase, if_pos rfl]
      · exact hgone u h

/-! ### Characterization of the public operations -/

theorem add_request_dup (ro : ReadOnly) (index : Nat) (m : Message) (e : Entry)
    (rest : List Entry) (hent : m.entries = e :: rest)
    (hdup : mapContains ro.pending_read_index e.data = true) :
    add_request ro index m = some ro := by
  simp [add_request, hent, hdup]

theorem add_request_fresh (ro : ReadOnly) (index : Nat) (m : Message) (e : Entry)
    (rest : List Entry) (hent : m.entries = e :: rest)
    (hfresh : mapContains ro.pending_read_index e.data = false) :
    add_request ro index m =
      some { ro with
        pending_read_index := ro.pending_read_index ++ [(e.data, ⟨m, index, ∅⟩)]
        read_index_queue := ro.read_index_queue ++ [e.data] } := by
  simp [add_request, hent, hfresh]

theorem advance_not_found (ro : ReadOnly) (m : Message) (ready : Bool)
    (h : m.context ∉ ro.read_index_queue) :
    advance ro m ready = some ([], ro) := by
  have hf := (findPos_eq_none m.context ro.read_index_queue).mpr h
  simp [advance, hf]

theorem advance_false_spec (ro : ReadOnly) (m : Message) :
    ∃ ro', advance ro m false = some ([], ro') ∧
      ro'.option = ro.option ∧
      ro'.pending_read_index = ro.pending_read_index ∧
      ro'.read_index_queue = ro.read_index_queue ∧
      ro.waiting_for_ready ≤ ro'.waiting_for_ready ∧
      (m.context ∉ ro.read_index_queue → ro' = ro) ∧
      (∀ i, findPos m.context ro.read_index_queue = some i →
        ro'.waiting_for_ready = max ro.waiting_for_ready (i + 1)) := by
  cases hf : findPos m.context ro.read_index_queue with
  | none =>
    refine ⟨ro, by simp [advance, hf], rfl, rfl, rfl, le_refl _, fun _ => rfl, ?_⟩
    intro i hi
    cases hi
  | some i =>
    refine ⟨{ ro with waiting_for_ready := max ro.waiting_for_ready (i + 1) },
      by simp [advance, hf], rfl, rfl, rfl, le_max_left _ _, ?_, ?_⟩
    · intro hmem
      have := (findPos_eq_none m.context ro.read_index_queue).mpr hmem
      rw [this] at hf
      cases hf
    · intro j hj
      cases hj
      rfl

theorem advance_true_found (ro : ReadOnly) (m : Message) (i : Nat)
    (hinv : Inv ro) (hf : findPos m.context ro.read_index_queue = some i) :
    ∃ l pmap',
      advance ro m true =
        some (l, ⟨ro.option, pmap', ro.read_index_queue.drop (i + 1),
          ro.waiting_for_ready⟩) ∧
      (ro.read_index_queue.take (i + 1)).map (mapLookup ro.pending_read_index) =
        l.map some ∧
      (∀ t, t ∉ ro.read_index_queue.take (i + 1) →
        mapLookup pmap' t = mapLookup ro.pending_read_index t) ∧
      (∀ t ∈ ro.read_index_queue.take (i + 1), mapLookup pmap' t = none) := by
  obtain ⟨hmem, hkeys, hnd⟩ := hinv
  have hi : i < ro.read_index_queue.length := findPos_lt_length _ _ _ hf
  have hndtake : (ro.read_index_queue.take (i + 1)).Nodup :=
    List.Nodup.sublist (List.take_sublist _ _) hnd
  have hmemtake : ∀ t ∈ ro.read_index_queue.take (i + 1),
      (mapLookup ro.pending_read_index t).isSome = true := by
    intro t ht
    exact hmem t ((List.take_sublist _ _).subset ht)
  obtain ⟨l, pmap', heq, hmapeq, hkeep, hgone⟩ :=
    drainFront_spec (i + 1) ro.option ro.pending_read_index ro.read_index_queue
      ro.waiting_for_ready hi hndtake hmemtake
  refine ⟨l, pmap', ?_, hmapeq, hkeep, hgone⟩
  simp only [advance, hf, if_pos]
  exact heq

theorem recv_ack_unknown (ro : ReadOnly) (m : Message)
    (h : mapLookup ro.pending_read_index m.context = none) :
    recv_ack ro m = (∅, ro) := by
  simp [recv_ack, h]

theorem recv_ack_known (ro : ReadOnly) (m : Message) (rs : ReadIndexStatus)
    (h : mapLookup ro.pending_read_index m.context = some rs) :
    recv_ack ro m =
      (insert m.mfrom rs.acks ∪ {m.mto},
        { ro with
          pending_read_index := mapUpdate ro.pending_read_index m.context
            { rs with acks := insert m.mfrom rs.acks } }) := by
  simp [recv_ack, h]

theorem advance_by_commit_zero (ro : ReadOnly) (c : Nat)
    (h : ro.waiting_for_ready = 0) :
    advance_by_commit ro c = some ([], ro) := by
  simp [advance_by_commit, h]

theorem advance_by_commit_spec (ro : ReadOnly) (c : Nat) (hinv : Inv ro)
    (hle : ro.waiting_for_ready ≤ ro.read_index_queue.length)
    (hpos : 0 < ro.waiting_for_ready) :
    ∃ l pmap',
      advance_by_commit ro c =
        some (l, ⟨ro.option, pmap',
          ro.read_index_queue.drop ro.waiting_for_ready, 0⟩) ∧
      (ro.read_index_queue.take ro.waiting_for_ready).map
        (fun t => (mapLookup ro.pending_read_index t).map
          (fun s => { s with index := c })) = l.map some ∧
      (∀ s ∈ l, s.index = c) ∧
      l.length = ro.waiting_for_ready ∧
      (∀ t, t ∉ ro.read_index_queue.take ro.waiting_for_ready →
        mapLookup pmap' t = mapLookup ro.pending_read_index t) ∧
      (∀ t ∈ ro.read_index_queue.take ro.waiting_for_ready,
        mapLookup pmap' t = none) := by
  obtain ⟨hmem, hkeys, hnd⟩ := hinv
  have hndtake : (ro.read_index_queue.take ro.waiting_for_ready).Nodup :=
    List.Nodup.sublist (List.take_sublist _ _) hnd
  have hmemtake : ∀ t ∈ ro.read_index_queue.take ro.waiting_for_ready,
      (mapLookup ro.pending_read_index t).isSome = true := by
    intro t ht
    exact hmem t ((List.take_sublist _ _).subset ht)
  obtain ⟨l, pmap', heq, hmapeq, hidx, hlen, hkeep, hgone⟩ :=
    drainTokens_spec (ro.read_index_queue.take ro.waiting_for_ready)
      ro.pending_read_index c hndtake hmemtake
  refine ⟨l, pmap', ?_, hmapeq, hidx, ?_, hkeep, hgone⟩
  · unfold advance_by_commit
    rw [if_neg (by omega), if_pos hle, heq]
  · rw [hlen, List.length_take]
    omega

/-! ### Preservation of the registry invariant -/

theorem add_request_inv (ro : ReadOnly) (index : Nat) (m : Message) (ro' : ReadOnly)
    (hinv : Inv ro) (h : add_request ro index m = some ro') : Inv ro' := by
  obtain ⟨hmem, hkeys, hnd⟩ := hinv
  cases hent : m.entries with
  | nil => simp [add_request, hent] at h
  | cons e rest =>
    by_cases hc : mapContains ro.pending_read_index e.data = true
    · rw [add_request_dup ro index m e rest hent hc] at h
      cases h
      exact ⟨hmem, hkeys, hnd⟩
    · have hc' : mapContains ro.pending_read_index e.data = false := by
        simpa using hc
      rw [add_request_fresh ro index m e rest hent hc'] at h
      cases h
      have hnone : mapLookup ro.pending_read_index e.data = none := by
        cases hcase : mapLookup ro.pending_read_index e.data with
        | none => rfl
        | some v => simp [mapContains, hcase] at hc'
      have hknotin : e.data ∉ ro.read_index_queue := by
        intro hk
        rw [hmem e.data hk] at hc'
        cases hc'
      refine ⟨?_, ?_, ?_⟩
      · intro t ht
        simp only [List.mem_append, List.mem_singleton] at ht
        rcases ht with ht | ht
        · obtain ⟨v, hv⟩ := (mapContains_iff _ _).mp (hmem t ht)
          simp [mapContains, mapLookup_append_single_some _ e.data t _ v hv]
        · subst ht
          simp [mapContains, mapLookup_append_single_none _ e.data e.data _ hnone]
      · intro p hp
        simp only [List.mem_append, List.mem_singleton] at hp ⊢
        rcases hp with hp | hp
        · exact Or.inl (hkeys p hp)
        · subst hp
          exact Or.inr rfl
      · rw [List.nodup_append]
        exact ⟨hnd, List.nodup_singleton _, fun a ha hb => by
          rw [List.mem_singleton] at hb
          exact hknotin (hb ▸ ha)⟩

theorem recv_ack_shape (ro : ReadOnly) (m : Message) :
    (recv_ack ro m).2.read_index_queue = ro.read_index_queue ∧
    (recv_ack ro m).2.waiting_for_ready = ro.waiting_for_ready ∧
    (recv_ack ro m).2.option = ro.option := by
  cases hl : mapLookup ro.pending_read_index m.context <;> simp [recv_ack, hl]

theorem recv_ack_inv (ro : ReadOnly) (m : Message) (hinv : Inv ro) :
    Inv (recv_ack ro m).2 := by
  obtain ⟨hmem, hkeys, hnd⟩ := hinv
  cases hl : mapLookup ro.pending_read_index m.context with
  | none => rw [recv_ack_unknown ro m hl]; exact ⟨hmem, hkeys, hnd⟩
  | some rs =>
    rw [recv_ack_known ro m rs hl]
    have hctxmem : m.context ∈ ro.read_index_queue :=
      hkeys _ (exists_mem_of_mapLookup _ _ _ hl)
    refine ⟨?_, ?_, hnd⟩
    · intro t ht
      rw [mapContains, mapLookup_mapUpdate]
      by_cases htc : t = m.context
      · simp [htc, hl]
      · rw [if_neg htc]
        exact hmem t ht
    · intro p hp
      have hsome := mapLookup_isSome_of_mem _ p hp
      rw [mapLookup_mapUpdate] at hsome
      by_cases htc : p.1 = m.context
      · rw [htc]; exact hctxmem
      · rw [if_neg htc] at hsome
        obtain ⟨v, hv⟩ := Option.isSome_iff_exists.mp hsome
        exact hkeys (p.1, v) (exists_mem_of_mapLookup _ _ _ hv)

theorem advance_inv (ro : ReadOnly) (m : Message) (rdy : Bool)
    (l : List ReadIndexStatus) (ro' : ReadOnly)
    (hinv : Inv ro) (h : advance ro m rdy = some (l, ro')) : Inv ro' := by
  cases hf : findPos m.context ro.read_index_queue with
  | none =>
    rw [advance_not_found ro m rdy ((findPos_eq_none _ _).mp hf)] at h
    cases h
    exact hinv
  | some i =>
    cases rdy with
    | false =>
      obtain ⟨ro'', heq, _, hpm, hq, _, _, _⟩ := advance_false_spec ro m
      rw [heq] at h
      cases h
      obtain ⟨hmem, hkeys, hnd⟩ := hinv
      rw [Inv, hpm, hq]
      exact ⟨hmem, hkeys, hnd⟩
    | true =>
      obtain ⟨l₀, pmap', heq, hmapeq, hkeep, hgone⟩ := advance_true_found ro m i hinv hf
      rw [heq] at h
      cases h
      obtain ⟨hmem, hkeys, hnd⟩ := hinv
      have hsplit := List.take_append_drop (i + 1) ro.read_index_queue
      have hdisj : (ro.read_index_queue.take (i + 1)).Disjoint
          (ro.read_index_queue.drop (i + 1)) :=
        List.disjoint_of_nodup_append (by rw [hsplit]; exact hnd)
      refine ⟨?_, ?_, List.Nodup.sublist (List.drop_sublist _ _) hnd⟩
      · intro t ht
        have hnottake : t ∉ ro.read_index_queue.take (i + 1) :=
          fun hta => hdisj hta ht
        rw [mapContains, hkeep t hnottake]
        exact hmem t ((List.drop_sublist _ _).subset ht)
      · intro p hp
        have hsome := mapLookup_isSome_of_mem _ p hp
        have hnottake : p.1 ∉ ro.read_index_queue.take (i + 1) := by
          intro hta
          rw [hgone p.1 hta] at hsome
          cases hsome
        rw [hkeep p.1 hnottake] at hsome
        obtain ⟨v, hv⟩ := Option.isSome_iff_exists.mp hsome
        have hq : p.1 ∈ ro.read_index_queue :=
          hkeys (p.1, v) (exists_mem_of_mapLookup _ _ _ hv)
        rw [← hsplit, List.mem_append] at hq
        rcases hq with hq | hq
        · exact absurd hq hnottake
        · exact hq

theorem advance_by_commit_inv (ro : ReadOnly) (c : Nat)
    (l : List ReadIndexStatus) (ro' : ReadOnly)
    (hinv : Inv ro) (h : advance_by_commit ro c = some (l, ro')) : Inv ro' := by
  by_cases h0 : ro.waiting_for_ready = 0
  · rw [advance_by_commit_zero ro c h0] at h
    cases h
    exact hinv
  · by_cases hle : ro.waiting_for_ready ≤ ro.read_index_queue.length
    · obtain ⟨l₀, pmap', heq, hmapeq, hidx, hlen, hkeep, hgone⟩ :=
        advance_by_commit_spec ro c hinv hle (Nat.pos_of_ne_zero h0)
      rw [heq] at h
      cases h
      obtain ⟨hmem, hkeys, hnd⟩ := hinv
      have hsplit := List.take_append_drop ro.waiting_for_ready ro.read_index_queue
      have hdisj : (ro.read_index_queue.take ro.waiting_for_ready).Disjoint
          (ro.read_index_queue.drop ro.waiting_for_ready) :=
        List.disjoint_of_nodup_append (by rw [hsplit]; exact hnd)
      refine ⟨?_, ?_, List.Nodup.sublist (List.drop_sublist _ _) hnd⟩
      · intro t ht
        have hnottake : t ∉ ro.read_index_queue.take ro.waiting_for_ready :=
          fun hta => hdisj hta ht
        rw [mapContains, hkeep t hnottake]
        exact hmem t ((List.drop_sublist _ _).subset ht)
      · intro p hp
        have hsome := mapLookup_isSome_of_mem _ p hp
        have hnottake : p.1 ∉ ro.read_index_queue.take ro.waiting_for_ready := by
          intro hta
          rw [hgone p.1 hta] at hsome
          cases hsome
        rw [hkeep p.1 hnottake] at hsome
        obtain ⟨v, hv⟩ := Option.isSome_iff_exists.mp hsome
        have hq : p.1 ∈ ro.read_index_queue :=
          hkeys (p.1, v) (exists_mem_of_mapLookup _ _ _ hv)
        rw [← hsplit, List.mem_append] at hq
        rcases hq with hq | hq
        · exact absurd hq hnottake
        · exact hq
    · rw [advance_by_commit, if_neg h0, if_neg hle] at h
      cases h

/-! ### Unconditional shape facts about the operations -/

theorem drainFront_shape (n : Nat) :
    ∀ (ro : ReadOnly) (l : List ReadIndexStatus) (ro' : ReadOnly),
    drainFront ro n = some (l, ro') →
      ro'.waiting_for_ready = ro.waiting_for_ready ∧
      ro'.option = ro.option ∧
      ro'.read_index_queue = ro.read_index_queue.drop n ∧
      l.length = n := by
  induction n with
  | zero =>
    intro ro l ro' h
    simp only [drainFront] at h
    cases h
    exact ⟨rfl, rfl, rfl, rfl⟩
  | succ n ih =>
    intro ro l ro' h
    simp only [drainFront] at h
    split at h
    · cases h
    · rename_i t rest hq
      split at h
      · cases h
      · rename_i status hst
        split at h
        · cases h
        · rename_i l₀ ro₀ hrec
          cases h
          obtain ⟨h1, h2, h3, h4⟩ := ih _ _ _ hrec
          refine ⟨h1, h2, ?_, by simp [h4]⟩
          rw [h3, hq]
          rfl

theorem drainTokens_length (toks : List Ctx) :
    ∀ (pmap : List (Ctx × ReadIndexStatus)) (c : Nat) (l : List ReadIndexStatus)
      (pmap' : List (Ctx × ReadIndexStatus)),
    drainTokens pmap c toks = some (l, pmap') → l.length = toks.length := by
  induction toks with
  | nil =>
    intro pmap c l pmap' h
    simp only [drainTokens] at h
    cases h
    rfl
  | cons t rest ih =>
    intro pmap c l pmap' h
    simp only [drainTokens] at h
    split at h
    · cases h
    · rename_i status hst
      split at h
      · cases h
      · rename_i l₀ pm hrec
        cases h
        simp [ih _ _ _ _ hrec]

theorem add_request_shape (ro : ReadOnly) (index : Nat) (m : Message) (ro' : ReadOnly)
    (h : add_request ro index m = some ro') :
    ro'.waiting_for_ready = ro.waiting_for_ready ∧
    ro'.option = ro.option ∧
    ro.read_index_queue.length ≤ ro'.read_index_queue.length := by
  cases hent : m.entries with
  | nil => simp [add_request, hent] at h
  | cons e rest =>
    by_cases hc : mapContains ro.pending_read_index e.data = true
    · rw [add_request_dup ro index m e rest hent hc] at h
      cases h
      exact ⟨rfl, rfl, le_refl _⟩
    · rw [add_request_fresh ro index m e rest hent (by simpa using hc)] at h
      cases h
      refine ⟨rfl, rfl, ?_⟩
      simp

theorem advance_wfr_mono (ro : ReadOnly) (m : Message) (rdy : Bool)
    (l : List ReadIndexStatus) (ro' : ReadOnly)
    (h : advance ro m rdy = some (l, ro')) :
    ro.waiting_for_ready ≤ ro'.waiting_for_ready := by
  cases hf : findPos m.context ro.read_index_queue with
  | none =>
    rw [advance_not_found ro m rdy ((findPos_eq_none _ _).mp hf)] at h
    cases h
    exact le_refl _
  | some i =>
    cases rdy with
    | false =>
      obtain ⟨ro'', heq, _, _, _, hle, _, _⟩ := advance_false_spec ro m
      rw [heq] at h
      cases h
      exact hle
    | true =>
      have hdf : drainFront ro (i + 1) = some (l, ro') := by
        simpa [advance, hf] using h
      obtain ⟨h1, _, _, _⟩ := drainFront_shape (i + 1) ro l ro' hdf
      rw [h1]

theorem advance_by_commit_shape (ro : ReadOnly) (c : Nat)
    (l : List ReadIndexStatus) (ro' : ReadOnly)
    (h : advance_by_commit ro c = some (l, ro')) :
    (ro.waiting_for_ready = 0 → ro' = ro ∧ l = []) ∧
    (0 < ro.waiting_for_ready →
      ro'.waiting_for_ready = 0 ∧
      l.length = ro.waiting_for_ready ∧
      ro'.read_index_queue = ro.read_index_queue.drop ro.waiting_for_ready) := by
  by_cases h0 : ro.waiting_for_ready = 0
  · rw [advance_by_commit_zero ro c h0] at h
    cases h
    exact ⟨fun _ => ⟨rfl, rfl⟩, fun hpos => absurd h0 (by omega)⟩
  · refine ⟨fun hz => absurd hz h0, fun hpos => ?_⟩
    unfold advance_by_commit at h
    rw [if_neg h0] at h
    by_cases hle : ro.waiting_for_ready ≤ ro.read_index_queue.length
    · rw [if_pos hle] at h
      split at h
      · cases h
      · rename_i l₀ pm hrec
        cases h
        refine ⟨rfl, ?_, rfl⟩
        rw [drainTokens_length _ _ _ _ _ hrec, List.length_take]
        omega
    · rw [if_neg hle] at h
      cases h

/-! ### Batch registration, reachability, and example states -/

theorem mapContains_false_iff (pmap : List (Ctx × ReadIndexStatus)) (k : Ctx) :
    mapContains pmap k = false ↔ mapLookup pmap k = none := by
  rw [mapContains]
  cases mapLookup pmap k <;> simp

/-- The correlation token `add_request` reads from a request envelope
(`m.entries[0].data`); defaults to `[]` on an empty entry list. -/
def tokenOf (m : Message) : Ctx :=
  match m.entries with
  | [] => []
  | e :: _ => e.data

/-- Registers a batch of requests in order, propagating an abort. -/
def runAdds : ReadOnly → List (Nat × Message) → Option ReadOnly
  | ro, [] => some ro
  | ro, p :: ps =>
    match add_request ro p.1 p.2 with
    | none => none
    | some ro' => runAdds ro' ps

theorem runAdds_spec (ps : List (Nat × Message)) :
    ∀ ro : ReadOnly,
    (∀ p ∈ ps, p.2.entries ≠ []) →
    (ps.map (fun p => tokenOf p.2)).Nodup →
    (∀ p ∈ ps, mapContains ro.pending_read_index (tokenOf p.2) = false) →
    ∃ ro', runAdds ro ps = some ro' ∧
      ro'.read_index_queue =
        ro.read_index_queue ++ ps.map (fun p => tokenOf p.2) := by
  induction ps with
  | nil =>
    intro ro _ _ _
    exact ⟨ro, rfl, by simp⟩
  | cons p ps ih =>
    intro ro hne hnd hfresh
    obtain ⟨e, erest, hent⟩ : ∃ e erest, p.2.entries = e :: erest := by
      cases hc : p.2.entries with
      | nil => exact absurd hc (hne p (by simp))
      | cons e erest => exact ⟨e, erest, rfl⟩
    have htok : tokenOf p.2 = e.data := by simp [tokenOf, hent]
    have hf : mapContains ro.pending_read_index e.data = false := by
      rw [← htok]
      exact hfresh p (by simp)
    have hadd := add_request_fresh ro p.1 p.2 e erest hent hf
    rw [List.map_cons] at hnd
    have hnd' := List.nodup_cons.mp hnd
    have hfresh' : ∀ q ∈ ps,
        mapContains (ro.pending_read_index ++ [(e.data, ⟨p.2, p.1, ∅⟩)])
          (tokenOf q.2) = false := by
      intro q hq
      have hneq : tokenOf q.2 ≠ tokenOf p.2 := by
        intro hEq
        exact hnd'.1 (hEq ▸ List.mem_map_of_mem _ hq)
      have hlnone := (mapContains_false_iff _ _).mp
        (hfresh q (List.mem_cons_of_mem _ hq))
      rw [mapContains_false_iff,
        mapLookup_append_single_none _ _ _ _ hlnone,
        if_neg (fun hEq => hneq (htok.trans hEq).symm)]
    obtain ⟨ro', hrun, hq⟩ :=
      ih { ro with
            pending_read_index :=
              ro.pending_read_index ++ [(e.data, ⟨p.2, p.1, ∅⟩)]
            read_index_queue := ro.read_index_queue ++ [e.data] }
        (fun q hq => hne q (List.mem_cons_of_mem _ hq)) hnd'.2 hfresh'
    refine ⟨ro', ?_, ?_⟩
    · simp only [runAdds, hadd]
      exact hrun
    · rw [hq]
      simp [htok]

theorem new_inv (option : ReadOnlyOption) : Inv (new option) :=
  ⟨fun t ht => absurd ht (List.not_mem_nil t),
   fun p hp => absurd hp (List.not_mem_nil p),
   List.nodup_nil⟩

/-- States reachable from a freshly created registry through the four public
operations (aborting calls do not produce a successor state). -/
inductive Reachable : ReadOnly → Prop where
  | init (option : ReadOnlyOption) : Reachable (new option)
  | add (ro : ReadOnly) (index : Nat) (m : Message) (ro' : ReadOnly) :
      Reachable ro → add_request ro index m = some ro' → Reachable ro'
  | ack (ro : ReadOnly) (m : Message) :
      Reachable ro → Reachable (recv_ack ro m).2
  | adv (ro : ReadOnly) (m : Message) (rdy : Bool) (l : List ReadIndexStatus)
      (ro' : ReadOnly) :
      Reachable ro → advance ro m rdy = some (l, ro') → Reachable ro'
  | commit (ro : ReadOnly) (c : Nat) (l : List ReadIndexStatus) (ro' : ReadOnly) :
      Reachable ro → advance_by_commit ro c = some (l, ro') → Reachable ro'

/-- Reachability under the owning engine's calling discipline: `advance` with
`ready = true` is only invoked while the gate counter is zero (the engine
flushes the gate through `advance_by_commit` at the moment its own term
commits, before any ready acknowledgment-driven release can happen). -/
inductive ReachableSafe : ReadOnly → Prop where
  | init (option : ReadOnlyOption) : ReachableSafe (new option)
  | add (ro : ReadOnly) (index : Nat) (m : Message) (ro' : ReadOnly) :
      ReachableSafe ro → add_request ro index m = some ro' → ReachableSafe ro'
  | ack (ro : ReadOnly) (m : Message) :
      ReachableSafe ro → ReachableSafe (recv_ack ro m).2
  | adv (ro : ReadOnly) (m : Message) (rdy : Bool) (l : List ReadIndexStatus)
      (ro' : ReadOnly) :
      ReachableSafe ro → (rdy = true → ro.waiting_for_ready = 0) →
      advance ro m rdy = some (l, ro') → ReachableSafe ro'
  | commit (ro : ReadOnly) (c : Nat) (l : List ReadIndexStatus) (ro' : ReadOnly) :
      ReachableSafe ro → advance_by_commit ro c = some (l, ro') →
      ReachableSafe ro'

/-- Example read request with correlation token `[1]`. -/
def exM1 : Message := ⟨[⟨[1]⟩], [1], 2, 1⟩

/-- A heartbeat-response message acknowledging token `[1]`: node 2 answers
the leader, node 1. -/
def exAck : Message := ⟨[], [1], 2, 1⟩

/-- A request envelope with an empty entry list. -/
def exMempty : Message := ⟨[], [], 0, 0⟩

/-- The status stored for `exM1` registered at commit index 5. -/
def exSt1 : ReadIndexStatus := ⟨exM1, 5, ∅⟩

/-- The freshly created registry. -/
def exRo0 : ReadOnly := new .Safe

/-- After registering `exM1` at index 5. -/
def exRo1 : ReadOnly := ⟨.Safe, [([1], exSt1)], [[1]], 0⟩

/-- After a not-ready `advance` on token `[1]`: the gate counter is 1. -/
def exRo2 : ReadOnly := ⟨.Safe, [([1], exSt1)], [[1]], 1⟩

/-- After a ready `advance` drained the gated entry: empty registry whose
gate counter is still 1. -/
def exRo3 : ReadOnly := ⟨.Safe, [], [], 1⟩

/-- The registry left by `advance_by_commit` on `exRo2`. -/
def exRo4 : ReadOnly := ⟨.Safe, [], [], 0⟩

/-! ### The claims -/

/-- C1: for every registry state satisfying the data-model invariant,
`advance` (releaseThrough) with `ready = true` and a token present in the
queue at position `i` returns exactly the `i+1` oldest entries in
registration order and removes each of them from both the queue and the
token map, leaving every later-queued entry present and unchanged; if the
token is not in the queue it returns the empty list. -/
theorem C1_release_through_ready (ro : ReadOnly) (m : Message) (hinv : Inv ro) :
    (m.context ∉ ro.read_index_queue → advance ro m true = some ([], ro)) ∧
    (∀ i, findPos m.context ro.read_index_queue = some i →
      ∃ l ro',
        advance ro m true = some (l, ro') ∧
        (ro.read_index_queue.take (i + 1)).map (mapLookup ro.pending_read_index) =
          l.map some ∧
        ro'.read_index_queue = ro.read_index_queue.drop (i + 1) ∧
        (∀ t ∈ ro.read_index_queue.take (i + 1),
          t ∉ ro'.read_index_queue ∧ mapLookup ro'.pending_read_index t = none) ∧
        (∀ t ∈ ro'.read_index_queue,
          mapLookup ro'.pending_read_index t =
            mapLookup ro.pending_read_index t)) := by
  constructor
  · exact advance_not_found ro m true
  · intro i hf
    obtain ⟨l, pmap', heq, hmapeq, hkeep, hgone⟩ := advance_true_found ro m i hinv hf
    obtain ⟨_, _, hnd⟩ := hinv
    have hdisj : (ro.read_index_queue.take (i + 1)).Disjoint
        (ro.read_index_queue.drop (i + 1)) :=
      List.disjoint_of_nodup_append
        (by rw [List.take_append_drop]; exact hnd)
    refine ⟨l, _, heq, hmapeq, rfl, ?_, ?_⟩
    · intro t ht
      exact ⟨fun hdrop => hdisj ht hdrop, hgone t ht⟩
    · intro t ht
      exact hkeep t (fun hta => hdisj hta ht)

theorem C1_witness : (advance exRo1 exM1 true).isSome = true := by
  obtain ⟨l, ro', heq, -, -, -, -⟩ :=
    (C1_release_through_ready exRo1 exM1 (by decide)).2 0 (by decide)
  rw [heq]
  rfl

/-- C2: for every registry state satisfying the data-model invariant and
whose gate counter is at most the queue length: with counter 0,
`advance_by_commit` (releaseByCommit) returns the empty list and changes
nothing; otherwise it removes exactly that many entries from the front of
the queue and from the token map, resets the counter to 0, sets each removed
entry's index to the committed index, and returns them in registration
order. -/
theorem C2_release_by_commit (ro : ReadOnly) (c : Nat) (hinv : Inv ro)
    (hle : ro.waiting_for_ready ≤ ro.read_index_queue.length) :
    (ro.waiting_for_ready = 0 → advance_by_commit ro c = some ([], ro)) ∧
    (0 < ro.waiting_for_ready →
      ∃ l ro',
        advance_by_commit ro c = some (l, ro') ∧
        l.length = ro.waiting_for_ready ∧
        (ro.read_index_queue.take ro.waiting_for_ready).map
          (fun t => (mapLookup ro.pending_read_index t).map
            (fun s => { s with index := c })) = l.map some ∧
        (∀ s ∈ l, s.index = c) ∧
        ro'.waiting_for_ready = 0 ∧
        ro'.read_index_queue = ro.read_index_queue.drop ro.waiting_for_ready ∧
        (∀ t ∈ ro.read_index_queue.take ro.waiting_for_ready,
          mapLookup ro'.pending_read_index t = none) ∧
        (∀ t ∈ ro'.read_index_queue,
          mapLookup ro'.pending_read_index t =
            mapLookup ro.pending_read_index t)) := by
  refine ⟨advance_by_commit_zero ro c, ?_⟩
  intro hpos
  obtain ⟨l, pmap', heq, hmapeq, hidx, hlen, hkeep, hgone⟩ :=
    advance_by_commit_spec ro c hinv hle hpos
  obtain ⟨_, _, hnd⟩ := hinv
  have hdisj : (ro.read_index_queue.take ro.waiting_for_ready).Disjoint
      (ro.read_index_queue.drop ro.waiting_for_ready) :=
    List.disjoint_of_nodup_append (by rw [List.take_append_drop]; exact hnd)
  refine ⟨l, _, heq, hlen, hmapeq, hidx, rfl, rfl, hgone, ?_⟩
  intro t ht
  exact hkeep t (fun hta => hdisj hta ht)

theorem C2_witness : (advance_by_commit exRo2 7).isSome = true := by
  obtain ⟨l, ro', heq, -, -, -, -, -, -, -⟩ :=
    (C2_release_by_commit exRo2 7 (by decide) (by decide)).2 (by decide)
  rw [heq]
  rfl

/-- C3: every public operation of the registry (`add_request`, `recv_ack`,
`advance`, `advance_by_commit`) preserves the invariant that a token occurs
in the order queue if and only if it is a key of the token map, and that the
queue contains no duplicate tokens. -/
theorem C3_operations_preserve_invariant :
    (∀ ro index m ro', Inv ro → add_request ro index m = some ro' → Inv ro') ∧
    (∀ ro m, Inv ro → Inv (recv_ack ro m).2) ∧
    (∀ ro m rdy l ro', Inv ro → advance ro m rdy = some (l, ro') → Inv ro') ∧
    (∀ ro c l ro', Inv ro → advance_by_commit ro c = some (l, ro') → Inv ro') :=
  ⟨fun ro index m ro' hinv h => add_request_inv ro index m ro' hinv h,
   fun ro m hinv => recv_ack_inv ro m hinv,
   fun ro m rdy l ro' hinv h => advance_inv ro m rdy l ro' hinv h,
   fun ro c l ro' hinv h => advance_by_commit_inv ro c l ro' hinv h⟩

theorem C3_witness : Inv exRo1 :=
  C3_operations_preserve_invariant.1 exRo0 5 exM1 exRo1 (by decide) (by decide)

/-- C4 counterexample: the claim that any drain of the gated front entries
resets the blocked counter is false.  In `exRo2` the single queued entry is
gated (counter 1); the ack-driven `advance` with `ready = true` drains it,
yet the counter stays 1 instead of being reset to 0. -/
theorem C4_counterexample :
    exRo2.waiting_for_ready = 1 ∧
    findPos exM1.context exRo2.read_index_queue = some 0 ∧
    advance exRo2 exM1 true = some ([exSt1], exRo3) ∧
    exRo3.read_index_queue = [] ∧
    exRo3.waiting_for_ready = 1 := by
  refine ⟨rfl, by decide, by decide, rfl, rfl⟩

/-- C4 amended: the blocked counter is reset to 0 only by the commit-driven
release path: registration and ack recording leave it unchanged, `advance`
never decreases it (it can drain gated entries without resetting it), and
`advance_by_commit` with a positive counter drains exactly that many entries
from the front of the queue and resets the counter to 0. -/
theorem C4_gate_reset_monotone :
    (∀ ro index m ro', add_request ro index m = some ro' →
      ro'.waiting_for_ready = ro.waiting_for_ready) ∧
    (∀ ro m, (recv_ack ro m).2.waiting_for_ready = ro.waiting_for_ready) ∧
    (∀ ro m rdy l ro', advance ro m rdy = some (l, ro') →
      ro.waiting_for_ready ≤ ro'.waiting_for_ready) ∧
    (∀ ro c l ro', advance_by_commit ro c = some (l, ro') →
      (ro.waiting_for_ready = 0 → ro' = ro ∧ l = []) ∧
      (0 < ro.waiting_for_ready →
        ro'.waiting_for_ready = 0 ∧
        l.length = ro.waiting_for_ready ∧
        ro'.read_index_queue =
          ro.read_index_queue.drop ro.waiting_for_ready)) :=
  ⟨fun ro index m ro' h => (add_request_shape ro index m ro' h).1,
   fun ro m => (recv_ack_shape ro m).2.1,
   fun ro m rdy l ro' h => advance_wfr_mono ro m rdy l ro' h,
   fun ro c l ro' h => advance_by_commit_shape ro c l ro' h⟩

theorem C4_witness :
    exRo4.waiting_for_ready = 0 ∧ exRo4.read_index_queue = [] := by
  have h := (C4_gate_reset_monotone.2.2.2 exRo2 7 [⟨exM1, 7, ∅⟩] exRo4
    (by decide)).2 (by decide)
  refine ⟨h.1, ?_⟩
  rw [h.2.2]
  rfl

/-- C5: `recv_ack` (recordAck) on an unregistered token returns the empty
set and mutates nothing; on a registered token it inserts the acker `from`
into that entry's stored ack set and returns the union of the stored ack set
with the singleton of the responder `to`, so the returned set contains `to`
and every acker recorded for the token, and the stored ack set only grows. -/
theorem C5_record_ack (ro : ReadOnly) (m : Message) :
    (mapLookup ro.pending_read_index m.context = none →
      recv_ack ro m = (∅, ro)) ∧
    (∀ rs, mapLookup ro.pending_read_index m.context = some rs →
      (recv_ack ro m).1 = insert m.mfrom rs.acks ∪ {m.mto} ∧
      m.mto ∈ (recv_ack ro m).1 ∧
      m.mfrom ∈ (recv_ack ro m).1 ∧
      rs.acks ⊆ (recv_ack ro m).1 ∧
      mapLookup (recv_ack ro m).2.pending_read_index m.context =
        some { rs with acks := insert m.mfrom rs.acks } ∧
      rs.acks ⊆ insert m.mfrom rs.acks ∧
      (∀ t, t ≠ m.context →
        mapLookup (recv_ack ro m).2.pending_read_index t =
          mapLookup ro.pending_read_index t) ∧
      (recv_ack ro m).2.read_index_queue = ro.read_index_queue ∧
      (recv_ack ro m).2.waiting_for_ready = ro.waiting_for_ready) := by
  refine ⟨recv_ack_unknown ro m, ?_⟩
  intro rs hl
  rw [recv_ack_known ro m rs hl]
  refine ⟨rfl, ?_, ?_, ?_, ?_, Finset.subset_insert _ _, ?_, rfl, rfl⟩
  · exact Finset.mem_union_right _ (Finset.mem_singleton_self _)
  · exact Finset.mem_union_left _ (Finset.mem_insert_self _ _)
  · exact fun a ha => Finset.mem_union_left _ (Finset.mem_insert_of_mem ha)
  · rw [mapLookup_mapUpdate, if_pos rfl, hl]
    rfl
  · intro t ht
    rw [mapLookup_mapUpdate, if_neg ht]

theorem C5_witness :
    (recv_ack exRo1 exAck).1 = {1, 2} ∧ exAck.mto ∈ (recv_ack exRo1 exAck).1 := by
  obtain ⟨hset, hto, -, -, -, -, -, -, -⟩ :=
    (C5_record_ack exRo1 exAck).2 exSt1 (by decide)
  refine ⟨?_, hto⟩
  rw [hset]
  decide

/-- C6: `advance` (releaseThrough) with `ready = false` leaves the queue,
the token map, and every stored entry unchanged and returns the empty list;
when the token is found at position `i` it sets the blocked counter to
`max(counter, i+1)`, so the counter is non-decreasing across repeated calls
with equal or lower positions. -/
theorem C6_release_not_ready_frame (ro : ReadOnly) (m : Message) :
    ∃ ro', advance ro m false = some ([], ro') ∧
      ro'.pending_read_index = ro.pending_read_index ∧
      ro'.read_index_queue = ro.read_index_queue ∧
      ro.waiting_for_ready ≤ ro'.waiting_for_ready ∧
      (∀ i, findPos m.context ro.read_index_queue = some i →
        ro'.waiting_for_ready = max ro.waiting_for_ready (i + 1)) := by
  obtain ⟨ro', heq, _, hpm, hq, hle, _, hmax⟩ := advance_false_spec ro m
  exact ⟨ro', heq, hpm, hq, hle, hmax⟩

theorem C6_witness :
    ∃ ro', advance exRo1 exM1 false = some ([], ro') ∧
      ro'.waiting_for_ready = max exRo1.waiting_for_ready 1 := by
  obtain ⟨ro', heq, hpm, hq, hle, hmax⟩ := C6_release_not_ready_frame exRo1 exM1
  exact ⟨ro', heq, hmax 0 (by decide)⟩

/-- C7: registering a request whose envelope carries a correlation token
already present in the registry is a no-op: `add_request` returns the state
unchanged (token map, captured indices, ack sets, queue, and blocked counter
all identical). -/
theorem C7_duplicate_registration_noop (ro : ReadOnly) (index : Nat)
    (m : Message) (e : Entry) (rest : List Entry)
    (hent : m.entries = e :: rest)
    (hdup : mapContains ro.pending_read_index e.data = true) :
    add_request ro index m = some ro :=
  add_request_dup ro index m e rest hent hdup

theorem C7_witness : add_request exRo1 9 exM1 = some exRo1 :=
  C7_duplicate_registration_noop exRo1 9 exM1 ⟨[1]⟩ [] rfl (by decide)

/-- C8: starting from an empty registry, registering a batch of requests
with pairwise distinct tokens yields a pending count equal to the batch
length, and `last_pending_request_ctx` (lastToken) returns the token of the
most recently registered not-yet-drained request — the tail of the order
queue — or none when the registry is empty. -/
theorem C8_batch_registration (option : ReadOnlyOption)
    (ps : List (Nat × Message))
    (hne : ∀ p ∈ ps, p.2.entries ≠ [])
    (hnd : (ps.map (fun p => tokenOf p.2)).Nodup) :
    (∀ ro : ReadOnly,
      last_pending_request_ctx ro = ro.read_index_queue.getLast?) ∧
    last_pending_request_ctx (new option) = none ∧
    ∃ ro', runAdds (new option) ps = some ro' ∧
      pending_read_count ro' = ps.length ∧
      ro'.read_index_queue = ps.map (fun p => tokenOf p.2) ∧
      last_pending_request_ctx ro' =
        (ps.map (fun p => tokenOf p.2)).getLast? := by
  refine ⟨fun ro => rfl, rfl, ?_⟩
  obtain ⟨ro', hrun, hq⟩ := runAdds_spec ps (new option) hne hnd (fun p _ => rfl)
  have hq' : ro'.read_index_queue = ps.map (fun p => tokenOf p.2) := by
    rw [hq]
    rfl
  refine ⟨ro', hrun, ?_, hq', ?_⟩
  · show ro'.read_index_queue.length = ps.length
    rw [hq', List.length_map]
  · show ro'.read_index_queue.getLast? = _
    rw [hq']

/-- A second example read request, with correlation token `[2]`. -/
def exM2 : Message := ⟨[⟨[2]⟩], [2], 3, 1⟩

theorem C8_witness :
    ∃ ro', runAdds (new .Safe) [(5, exM1), (7, exM2)] = some ro' ∧
      pending_read_count ro' = 2 ∧
      last_pending_request_ctx ro' = some [2] := by
  obtain ⟨-, -, ro', hrun, hcount, hq, hlast⟩ :=
    C8_batch_registration .Safe [(5, exM1), (7, exM2)] (by decide) (by decide)
  refine ⟨ro', hrun, hcount, ?_⟩
  rw [hlast]
  decide

/-- C9: `add_request` reads the first entry of the request envelope to
obtain the correlation token; with a non-empty entry list the operation is
total (never aborts), while an envelope with an empty entry list makes the
first-entry access out of bounds and the operation aborts. -/
theorem C9_add_request_first_entry (ro : ReadOnly) (index : Nat) (m : Message) :
    (m.entries ≠ [] → (add_request ro index m).isSome = true) ∧
    (m.entries = [] → add_request ro index m = none) := by
  constructor
  · intro hne
    cases hent : m.entries with
    | nil => exact absurd hent hne
    | cons e rest =>
      by_cases hc : mapContains ro.pending_read_index e.data = true
      · rw [add_request_dup ro index m e rest hent hc]
        rfl
      · rw [add_request_fresh ro index m e rest hent (by simpa using hc)]
        rfl
  · intro h0
    simp [add_request, h0]

theorem C9_witness :
    (add_request exRo0 5 exM1).isSome = true ∧
    add_request exRo0 5 exMempty = none :=
  ⟨(C9_add_request_first_entry exRo0 5 exM1).1 (by decide),
   (C9_add_request_first_entry exRo0 5 exMempty).2 rfl⟩

/-- C10 counterexample: the blocked counter can exceed the queue length in a
state reachable from the empty registry through the public operations, and
`advance_by_commit` aborts there.  Register token `[1]`, mark it blocked via
a not-ready `advance` (counter 1), then drain it via a ready `advance`: the
queue empties but the counter stays 1, and the front-segment split of
`advance_by_commit` is out of bounds. -/
theorem C10_counterexample :
    Reachable exRo3 ∧
    exRo3.read_index_queue.length < exRo3.waiting_for_ready ∧
    advance_by_commit exRo3 10 = none := by
  refine ⟨?_, by decide, by decide⟩
  have h0 : Reachable exRo0 := Reachable.init .Safe
  have h1 : Reachable exRo1 := Reachable.add exRo0 5 exM1 exRo1 h0 (by decide)
  have h2 : Reachable exRo2 := Reachable.adv exRo1 exM1 false [] exRo2 h1 (by decide)
  exact Reachable.adv exRo2 exM1 true [exSt1] exRo3 h2 (by decide)

/-- C10 amended: in every state reachable from the empty registry through
the public operations under the engine's calling discipline — `advance` with
`ready = true` is only invoked while the blocked counter is zero — the
blocked counter is at most the queue length, so the front-segment split of
`advance_by_commit` is in bounds and the operation never aborts. -/
theorem C10_safe_reachable_bound (ro : ReadOnly) (h : ReachableSafe ro) :
    ro.waiting_for_ready ≤ ro.read_index_queue.length ∧
    ∀ c, (advance_by_commit ro c).isSome = true := by
  have main : Inv ro ∧ ro.waiting_for_ready ≤ ro.read_index_queue.length := by
    induction h with
    | init opt => exact ⟨new_inv opt, le_refl _⟩
    | add ro index m ro' hr heq ih =>
      obtain ⟨hw, _, hlen⟩ := add_request_shape ro index m ro' heq
      have h2 := ih.2
      exact ⟨add_request_inv ro index m ro' ih.1 heq, by omega⟩
    | ack ro m hr ih =>
      obtain ⟨hq, hw, _⟩ := recv_ack_shape ro m
      exact ⟨recv_ack_inv ro m ih.1, by rw [hq, hw]; exact ih.2⟩
    | adv ro m rdy l ro' hr hguard heq ih =>
      refine ⟨advance_inv ro m rdy l ro' ih.1 heq, ?_⟩
      cases hf : findPos m.context ro.read_index_queue with
      | none =>
        rw [advance_not_found ro m rdy ((findPos_eq_none _ _).mp hf)] at heq
        cases heq
        exact ih.2
      | some i =>
        cases rdy with
        | false =>
          obtain ⟨ro'', heq', _, _, hq, _, _, hmax⟩ := advance_false_spec ro m
          rw [heq'] at heq
          cases heq
          have hi := findPos_lt_length _ _ _ hf
          have h2 := ih.2
          rw [hq, hmax i hf]
          omega
        | true =>
          have h0 := hguard rfl
          have hdf : drainFront ro (i + 1) = some (l, ro') := by
            simpa [advance, hf] using heq
          obtain ⟨hw, -, -, -⟩ := drainFront_shape (i + 1) ro l ro' hdf
          rw [hw, h0]
          exact Nat.zero_le _
    | commit ro c l ro' hr heq ih =>
      refine ⟨advance_by_commit_inv ro c l ro' ih.1 heq, ?_⟩
      obtain ⟨hzero, hpos⟩ := advance_by_commit_shape ro c l ro' heq
      by_cases h0 : ro.waiting_for_ready = 0
      · rw [(hzero h0).1]
        exact ih.2
      · rw [(hpos (Nat.pos_of_ne_zero h0)).1]
        exact Nat.zero_le _
  refine ⟨main.2, ?_⟩
  intro c
  by_cases h0 : ro.waiting_for_ready = 0
  · rw [advance_by_commit_zero ro c h0]
    rfl
  · obtain ⟨l, pmap', heq, -, -, -, -, -⟩ :=
      advance_by_commit_spec ro c main.1 main.2 (Nat.pos_of_ne_zero h0)
    rw [heq]
    rfl

theorem C10_witness :
    exRo1.waiting_for_ready ≤ exRo1.read_index_queue.length ∧
    (advance_by_commit exRo1 10).isSome = true := by
  have h := C10_safe_reachable_bound exRo1
    (ReachableSafe.add exRo0 5 exM1 exRo1 (ReachableSafe.init .Safe) (by decide))
  exact ⟨h.1, h.2 10⟩

end RaftReadOnly
